import Mathlib

/-!
Verification of the randomization-and-permutation core of `regione_rust`
(`src/main.rs`), shallowly embedded in Lean.

Machine integers (`u64`, `u32`) are embedded as `ℕ`; the program never
relies on wrap-around for the quantities modelled here, and where a Rust
subtraction could underflow (a `panic` in debug builds) the relevant
theorems establish the bound that rules the underflow out.  `f64`
quantities that are exact small integers (permutation counts) are
embedded as `ℕ`; `f64` ratios (mean, variance, p-value) as `ℚ`.  The
`f32` chunk-size computation of `main` is embedded exactly, with explicit
round-to-nearest-even conversion and rounding of the quotient.

Randomness: `tinyrand`'s `StdRand::next_range(lo..hi)` is an external
crate contractually returning a value uniform in `[lo, hi)`; it is
embedded as `lo + raw % (hi - lo)` applied to a raw draw stream
`rng : ℕ → ℕ` threaded by call index.  Every value of `[lo, hi)` is
reachable, and every draw lands in `[lo, hi)` (for `lo < hi`), so
universally quantifying over `rng` covers every real run, and a concrete
`rng` exhibits a reachable run.  `fastrand::shuffle` is embedded as an
arbitrary function on the shuffled list; universal statements hold for
every such function (in particular every permutation), and concrete runs
instantiate it with a reachable permutation such as the identity.
-/

/-- Modelled from the spec and the `rust-lapper` crate interface used by
`src/main.rs`: a half-open genomic interval `{start, stop, val}`
(`io::Iv = Interval<u64, u64>`; `io.rs` itself is not under `src/`). -/
structure Iv where
  start : ℕ
  stop : ℕ
  val : ℕ
  deriving Repr, DecidableEq

/-- Modelled from the spec (§3 Interval Collection) and the `rust-lapper`
crate contract: an interval collection holding its intervals sorted by
`start`, then `stop` (the order `Lapper::new` establishes). -/
structure Lapper where
  intervals : List Iv
  deriving Repr, DecidableEq

/-- Insertion step of the construction-time sort (by `start`, then `stop`). -/
def insertIv (i : Iv) : List Iv → List Iv
  | [] => [i]
  | j :: rest =>
    if i.start < j.start ∨ (i.start = j.start ∧ i.stop ≤ j.stop) then i :: j :: rest
    else j :: insertIv i rest

/-- Sort intervals by `start`, then `stop`. -/
def sortIvs : List Iv → List Iv
  | [] => []
  | i :: rest => insertIv i (sortIvs rest)

/-- `Lapper::new`: stores the intervals sorted by `start`, then `stop`. -/
def Lapper.new (l : List Iv) : Lapper := ⟨sortIvs l⟩

/-- `rust-lapper` overlap test used by `find(lo, hi)`: an interval is
returned iff `interval.start < hi && interval.stop > lo`. -/
def Iv.hits (i : Iv) (lo hi : ℕ) : Bool :=
  decide (i.start < hi) && decide (lo < i.stop)

/-- `Lapper::find(lo, hi)`: the (lazy, in-order) sequence of stored
intervals overlapping `[lo, hi)`, embedded as a filtered list. -/
def Lapper.find (l : Lapper) (lo hi : ℕ) : List Iv :=
  l.intervals.filter (fun i => i.hits lo hi)

/-- `Lapper::len()`: number of stored intervals. -/
def Lapper.len (l : Lapper) : ℕ := l.intervals.length

/-- Sweep computing the number of positions covered by a union of
intervals sorted by `start`: `hi` is the furthest `stop` seen so far,
`acc` the covered count so far. -/
def covGo : List Iv → ℕ → ℕ → ℕ
  | [], _, acc => acc
  | i :: rest, hi, acc =>
    if i.stop ≤ hi then covGo rest hi acc
    else covGo rest i.stop (acc + (i.stop - max i.start hi))

/-- `Lapper::cov()`: total number of positions covered by the stored
intervals (union size; the stored list is sorted by `start`). -/
def Lapper.cov (l : Lapper) : ℕ := covGo l.intervals 0 0

/-- Merge step over a `start`-sorted list: `cur` is the open merged
interval; a following interval that starts at or before `cur.stop`
(overlapping or touching) is absorbed. -/
def mergeGo : List Iv → Iv → List Iv
  | [], cur => [cur]
  | i :: rest, cur =>
    if i.start ≤ cur.stop then mergeGo rest ⟨cur.start, max cur.stop i.stop, cur.val⟩
    else cur :: mergeGo rest i

/-- `Lapper::merge_overlaps()`: collapse overlapping/touching intervals
of the sorted list into maximal non-overlapping spans. -/
def Lapper.merge_overlaps (l : Lapper) : Lapper :=
  match l.intervals with
  | [] => ⟨[]⟩
  | i :: rest => ⟨mergeGo rest i⟩

/-- Modelled from the spec (§3 Genome Model): `io::GenomeShift`
(`io.rs` is not under `src/`), with the three fields `src/main.rs` uses:
total `span`, `chrom` (one interval per chromosome, `val` holding that
chromosome's length), and the optional `gap_budget` mapping a region's
start coordinate to its budget (a `HashMap` embedded as an association
list, only ever consulted through key lookup). -/
structure GenomeShift where
  span : ℕ
  chrom : Lapper
  gap_budget : Option (List (ℕ × ℕ))
  deriving Repr, DecidableEq

/-- `src/main.rs` line 20: divisor bounding the size of a single gap piece. -/
def NOVLMAGIC : ℕ := 10000

/-- `tinyrand` `next_range(lo..hi)` applied to one raw draw: a value in
`[lo, hi)` when `lo < hi` (the crate's contract).  Callers guard the
empty-range case (on which the crate panics). -/
def nextRange (raw lo hi : ℕ) : ℕ := lo + raw % (hi - lo)

/-- Loop body of `shuffle_intervals` (lines 47-62): for each interval,
pick its bounding window, draw `shift` with `next_range(lower..(upper - len))`,
and emit `[start + shift, stop + shift)`.  `none` embeds the two panic
paths: an interval hitting no chromosome in per-chromosome mode, and an
empty random range. -/
def shuffleGo (rng : ℕ → ℕ) (genome : GenomeShift) (per_chrom : Bool) :
    ℕ → List Iv → Option (List Iv)
  | _, [] => some []
  | k, i :: rest => do
    let bounds ←
      if per_chrom then
        match (genome.chrom.find i.start i.stop).head? with
        | some b => some (b.start, b.stop)
        | none => none
      else some (0, genome.span)
    let lower := bounds.1
    let upper := bounds.2
    if upper - (i.stop - i.start) ≤ lower then none
    else
      let shift := nextRange (rng k) lower (upper - (i.stop - i.start))
      let tail ← shuffleGo rng genome per_chrom (k + 1) rest
      some (⟨i.start + shift, i.stop + shift, 0⟩ :: tail)

/-- `shuffle_intervals` (lines 36-64): randomly move each interval,
then rebuild a `Lapper` from the results. -/
def shuffle_intervals (rng : ℕ → ℕ) (intv : Lapper) (genome : GenomeShift)
    (per_chrom : Bool) : Option Lapper :=
  (shuffleGo rng genome per_chrom 0 intv.intervals).map Lapper.new

/-- Loop body of `circle_intervals` (lines 79-116): with the shared
`genome_shift`, each interval's window and effective shift are chosen;
the shifted interval is emitted unchanged, relocated by `- upper` if it
starts at or past `upper`, or split into `[new_start, upper)` and
`[lower, new_end - upper)` if it crosses `upper`. -/
def circleGo (genome : GenomeShift) (per_chrom : Bool) (genome_shift : ℕ) :
    List Iv → Option (List Iv)
  | [] => some []
  | i :: rest => do
    let bs ←
      if per_chrom then
        match (genome.chrom.find i.start i.stop).head? with
        | some b => some (b.start, b.stop, genome_shift % b.val)
        | none => none
      else some (0, genome.span, genome_shift)
    let lower := bs.1
    let upper := bs.2.1
    let shift := bs.2.2
    let new_start := i.start + shift
    let new_end := i.stop + shift
    let pieces :=
      if upper ≤ new_start then [⟨new_start - upper, new_end - upper, 0⟩]
      else if upper < new_end then
        [⟨new_start, upper, 0⟩, ⟨lower, new_end - upper, 0⟩]
      else [⟨new_start, new_end, 0⟩]
    let tail ← circleGo genome per_chrom genome_shift rest
    some (pieces ++ tail)

/-- `circle_intervals` (lines 66-118): one shared random shift drawn
uniformly from `[0, genome.span)`, applied to every interval with
wrap-around.  `none` embeds the panics (empty shift range when
`span = 0`; an interval hitting no chromosome in per-chromosome mode). -/
def circle_intervals (rng : ℕ → ℕ) (intv : Lapper) (genome : GenomeShift)
    (per_chrom : Bool) : Option Lapper :=
  if genome.span = 0 then none
  else
    (circleGo genome per_chrom (nextRange (rng 0) 0 genome.span) intv.intervals).map
      Lapper.new

/-- The gap-chopping loop of `novl_intervals` (lines 147-152), with
explicit fuel: while `m_gap > 0`, draw
`g_l = next_range(1..max(2, m_gap / NOVLMAGIC))`, record it, subtract it.
Each drawn piece is at least 1, so `m_gap` iterations always suffice;
`gapPieces_spec` proves the budget is fully consumed within the fuel,
i.e. the source loop terminates.  Returns the pieces and the next raw
draw index. -/
def gapChopGo (rng : ℕ → ℕ) : ℕ → ℕ → ℕ → List ℕ × ℕ
  | 0, k, _ => ([], k)
  | fuel + 1, k, m =>
    if m = 0 then ([], k)
    else
      let g := nextRange (rng k) 1 (max 2 (m / NOVLMAGIC))
      let rest := gapChopGo rng fuel (k + 1) (m - g)
      (g :: rest.1, rest.2)

/-- The gap pieces drawn for one region of initial budget `m`, starting
at raw draw index `k`. -/
def gapPieces (rng : ℕ → ℕ) (k m : ℕ) : List ℕ × ℕ := gapChopGo rng m k m

/-- The left-to-right sweep of `novl_intervals` (lines 161-171): walk the
shuffled `(is_real, length)` list from `pos`, emitting `[pos, pos + len)`
for real pieces and only advancing the cursor for gap pieces. -/
def layout (pos : ℕ) : List (Bool × ℕ) → List Iv
  | [] => []
  | (true, len) :: rest => ⟨pos, pos + len, 0⟩ :: layout (pos + len) rest
  | (false, len) :: rest => layout (pos + len) rest

/-- The region list of `novl_intervals` (lines 131-138): each chromosome
in per-chromosome mode, the single whole-genome span otherwise. -/
def spans (genome : GenomeShift) (per_chrom : Bool) : List Iv :=
  if per_chrom then genome.chrom.intervals else [⟨0, genome.span, 0⟩]

/-- Per-region loop of `novl_intervals` (lines 140-172), producing one
output list per region: look up the region's gap budget (the source
panics on a missing key; embedded as a 0 budget, which no claim's
statement relies on), chop it into gap pieces, append the real intervals
found in the region as `(true, length)`, shuffle, and lay out.  The raw
draw index `k` is threaded across regions. -/
def novlRegionsGo (rng : ℕ → ℕ) (shuffleF : List (Bool × ℕ) → List (Bool × ℕ))
    (intv : Lapper) (budget : List (ℕ × ℕ)) : List Iv → ℕ → List (List Iv)
  | [], _ => []
  | subi :: rest, k =>
    let m_gap := (budget.lookup subi.start).getD 0
    let chopped := gapPieces rng k m_gap
    let cur := chopped.1.map (fun g => (false, g)) ++
      (intv.find subi.start subi.stop).map (fun i => (true, i.stop - i.start))
    layout subi.start (shuffleF cur) :: novlRegionsGo rng shuffleF intv budget rest chopped.2

/-- The per-region outputs of `novl_intervals`; their concatenation is
the function's result.  `[]` when `gap_budget` is absent (a panic in the
source). -/
def novlRegions (rng : ℕ → ℕ) (shuffleF : List (Bool × ℕ) → List (Bool × ℕ))
    (intv : Lapper) (genome : GenomeShift) (per_chrom : Bool) : List (List Iv) :=
  match genome.gap_budget with
  | none => []
  | some budget => novlRegionsGo rng shuffleF intv budget (spans genome per_chrom) 0

/-- `novl_intervals` (lines 120-175): relocate the intervals of each
region by interleaving them with randomly chopped gap pieces in shuffled
order, laid out end to end from the region's start. -/
def novl_intervals (rng : ℕ → ℕ) (shuffleF : List (Bool × ℕ) → List (Bool × ℕ))
    (intv : Lapper) (genome : GenomeShift) (per_chrom : Bool) : Option Lapper :=
  match genome.gap_budget with
  | none => none
  | some _ => some (Lapper.new (novlRegions rng shuffleF intv genome per_chrom).flatten)

/-- `get_num_overlap_count` (lines 180-186): sum over A-intervals of the
number of B-intervals each intersects. -/
def get_num_overlap_count (a_lap b_lap : Lapper) : ℕ :=
  (a_lap.intervals.map (fun i => (b_lap.find i.start i.stop).length)).sum

/-- `get_any_overlap_count` (lines 188-197): number of A-intervals that
intersect at least one B-interval (1 if `find(..).next()` is `Some`). -/
def get_any_overlap_count (a_lap b_lap : Lapper) : ℕ :=
  (a_lap.intervals.map
    (fun i => if (b_lap.find i.start i.stop).head?.isSome then 1 else 0)).sum

/-- `mean_std` (lines 202-211), embedded over `ℚ` and returning
`(mean, variance)`.  The source returns `(mean, sqrt variance)` in `f64`;
the square root of a rational is not rational, and every claim in scope
depends on `std` only through `std = 0 ↔ variance = 0`, so the variance
is the returned second component.  Population (not sample) variance, as
in the source.  For an empty vector the source divides by `0.0` in `f64`
(`NaN`); here `x / 0 = 0` in `ℚ` — no claim evaluates this edge. -/
def mean_std (v : List ℕ) : ℚ × ℚ :=
  let n : ℚ := v.length
  let mean : ℚ := (v.sum : ℚ) / n
  let variance : ℚ := (v.map (fun (x : ℕ) => ((x : ℚ) - mean) ^ 2)).sum / n
  (mean, variance)

/-- `count_permutations` (lines 213-229): count of trials the observed
count is ≥ (for `alt = 'l'`) or ≤ (for `alt = 'g'`).  The source
accumulates `1.0`s into an `f64`, exact for any list that fits in
memory; embedded as `ℕ`. -/
def count_permutations (o_count : ℕ) (obs : List ℕ) (alt : Char) : ℕ :=
  if alt = 'l' then
    obs.foldl (fun g_count i => g_count + if i ≤ o_count then 1 else 0) 0
  else if alt = 'g' then
    obs.foldl (fun g_count i => g_count + if o_count ≤ i then 1 else 0) 0
  else 0

/-- `p_val` (line 347): the add-one-smoothed permutation p-value
`(g_count + 1) / (N + 1)`, embedded over `ℚ` (both operands are exact
nonnegative integers well below `f64` precision, and rounding a positive
quotient bounded by the representable `1` preserves the claimed bounds). -/
def p_val (g_count n : ℕ) : ℚ := ((g_count : ℚ) + 1) / ((n : ℚ) + 1)

/-- The z-score guard of `main` (line 350): the degenerate branch — in
which `z_score` keeps its initial `0.0` and the division is never
performed — is taken exactly when `initial_overlap_count == 0 && mu == 0.0`.
When it is not taken, line 353 computes `(obs - mu) / sd` in `f64`
(which is `±∞` when `sd == 0`, not `0`). -/
def z_score_degenerate (obs : ℕ) (mu : ℚ) : Bool :=
  decide (obs = 0) && decide (mu = 0)

/-- `make_gap_budget` (lines 232-256): whole-genome mode stores the
single entry `0 ↦ span - cov`; per-chromosome mode stores, for each
chromosome, its start ↦ the summed lengths of the intervals intersecting
it.  The `HashMap` is embedded as an association list keyed by region
start (the map is only ever read through key lookup). -/
def make_gap_budget (genome : GenomeShift) (intervals : Lapper)
    (per_chrom : Bool) : List (ℕ × ℕ) :=
  if per_chrom then
    genome.chrom.intervals.map (fun i =>
      (i.start, ((intervals.find i.start i.stop).map (fun p => p.stop - p.start)).sum))
  else [(0, genome.span - intervals.cov)]

/-- Result of `main`'s setup phase (lines 276-288). -/
structure SetupOut where
  a2 : Lapper
  b2 : Lapper
  swapped : Bool
  deriving Repr, DecidableEq

/-- `main`'s setup (lines 276-288): unless `no_merge`, merge both sets;
unless `no_swap`, swap A and B when A has more intervals, so the larger
set becomes the fixed comparator B. -/
def main_setup (a b : Lapper) (no_merge no_swap : Bool) : SetupOut :=
  let a1 := if no_merge then a else a.merge_overlaps
  let b1 := if no_merge then b else b.merge_overlaps
  if !no_swap && decide (b1.len < a1.len) then ⟨b1, a1, true⟩ else ⟨a1, b1, false⟩

/-- `main` line 297: when the Novl strategy is selected, the gap budget
is computed once, before any trial is spawned, from `a_lapper` — the
post-merge/post-swap A collection. -/
def main_gap_budget (genome : GenomeShift) (a b : Lapper)
    (no_merge no_swap per_chrom : Bool) : List (ℕ × ℕ) :=
  make_gap_budget genome (main_setup a b no_merge no_swap).a2 per_chrom

/-- One trial of the permutation engine (line 325):
`overlapper(&randomizer(&m_a, &m_genome, per_chrom), &m_b)`, where `m_a`
and `m_b` are clones of the post-setup collections; the randomized
argument is A, the fixed second argument is B. -/
def run_trial (randomizer : Lapper → GenomeShift → Bool → Lapper)
    (overlapper : Lapper → Lapper → ℕ) (genome : GenomeShift) (a b : Lapper)
    (no_merge no_swap per_chrom : Bool) : ℕ :=
  overlapper (randomizer (main_setup a b no_merge no_swap).a2 genome per_chrom)
    (main_setup a b no_merge no_swap).b2

/-- Round `num / den` to the nearest integer, ties to even (the IEEE-754
default rounding used by every `f32` operation below). -/
def rne (num den : ℕ) : ℕ :=
  let q := num / den
  let r := num % den
  if den < 2 * r ∨ (2 * r = den ∧ q % 2 = 1) then q + 1 else q

/-- Fueled base-2 logarithm (`⌊log₂ n⌋` whenever the fuel is at least
`n`, which every caller below supplies); written with structural
recursion so the kernel can evaluate it. -/
def log2Go : ℕ → ℕ → ℕ
  | 0, _ => 0
  | fuel + 1, n => if n ≤ 1 then 0 else log2Go fuel (n / 2) + 1

/-- `⌊log₂ n⌋` (0 at 0), kernel-evaluable. -/
def natLog2 (n : ℕ) : ℕ := log2Go n n

/-- The value of `n as f32` (line 314): exact below `2 ^ 24`, otherwise
`n` rounded to 24 significant bits, round-to-nearest, ties-to-even. -/
def f32OfNat (n : ℕ) : ℕ :=
  if n < 2 ^ 24 then n
  else rne n (2 ^ (natLog2 n - 23)) * 2 ^ (natLog2 n - 23)

/-- `(a / b).ceil() as u32` on nonnegative integral `f32` values `a`,
`b` (line 314): the exact rational quotient `a / b` is rounded to 24
significant bits (round-to-nearest, ties-to-even — IEEE-754 division),
then the ceiling is taken.  The quotient's binary exponent is located
first; the rounded significand is `rne` of exact scaled integers, and
`⌈m / 2^t⌉ = (m + 2^t - 1) / 2^t` folds the ceiling into integer
arithmetic so the kernel can evaluate everything. -/
def f32DivCeil (a b : ℕ) : ℕ :=
  if a = 0 then 0
  else if b ≤ a then
    let k := natLog2 (a / b)
    if k ≤ 23 then (rne (a * 2 ^ (23 - k)) b + (2 ^ (23 - k) - 1)) / 2 ^ (23 - k)
    else rne a (b * 2 ^ (k - 23)) * 2 ^ (k - 23)
  else
    let j := natLog2 ((b - 1) / a) + 1
    (rne (a * 2 ^ (23 + j)) b + (2 ^ (23 + j) - 1)) / 2 ^ (23 + j)

/-- `main` line 314:
`chunk_size = ((num_times as f32) / (threads as f32)).ceil() as u32`. -/
def chunk_size (num_times threads : ℕ) : ℕ :=
  f32DivCeil (f32OfNat num_times) (f32OfNat threads)

/-- `main` lines 316-327: thread `i` runs the trial indices
`start_iter..stop_iter` with `start_iter = i * chunk_size` and
`stop_iter = min(start_iter + chunk_size, num_times)`; this is the
per-thread count of produced trial statistics (0 when the range is
empty). -/
def trial_counts (num_times threads : ℕ) : List ℕ :=
  (List.range threads).map (fun i =>
    min (i * chunk_size num_times threads + chunk_size num_times threads) num_times
      - i * chunk_size num_times threads)

/-- `main` lines 331-335: the length of `all_counts`, the concatenation
of every worker's results. -/
def total_trials (num_times threads : ℕ) : ℕ := (trial_counts num_times threads).sum

/-- Signed interval length, for stating length preservation even on the
degenerate (`stop < start`) intervals the wrap-around bug can emit. -/
def ivLenZ (i : Iv) : ℤ := (i.stop : ℤ) - (i.start : ℤ)

/-- Containment of an interval in the half-open window `[lo, hi)`. -/
def containedIn (i : Iv) (lo hi : ℕ) : Prop := lo ≤ i.start ∧ i.stop ≤ hi

/-- Two half-open intervals are disjoint. -/
def IvDisjoint (a b : Iv) : Prop := a.stop ≤ b.start ∨ b.stop ≤ a.start

/-- Folding `+ (if p i then 1 else 0)` over a list counts the elements
satisfying `p`. -/
theorem foldl_add_ite (p : ℕ → Prop) [DecidablePred p] (l : List ℕ) (n : ℕ) :
    l.foldl (fun acc i => acc + if p i then 1 else 0) n
      = n + l.countP (fun i => decide (p i)) := by
  induction l generalizing n with
  | nil => simp
  | cons x xs ih =>
    simp only [List.foldl_cons, ih, List.countP_cons]
    by_cases h : p x
    · simp [h]
      omega
    · simp [h]

/-- C1: the claim fails on the code.  In per-chromosome circular
rotation with a chromosome that does not start at coordinate 0
(chromosomes `[0,10)` and `[10,20)`, interval `[15,18)`, shared shift 3),
the split case emits `[18,20)` and `[10,1)` — the wrapped remainder's
stop is `new_end - upper` instead of `lower + (new_end - upper)` — so the
signed lengths of the two pieces sum to `-7`, not to the original length
`3`: the multiset of output interval lengths differs from the input's. -/
theorem circle_split_length_bug :
    (circle_intervals (fun _ => 3) (Lapper.new [⟨15, 18, 0⟩])
          ⟨20, Lapper.new [⟨0, 10, 10⟩, ⟨10, 20, 10⟩], none⟩ true).map
        (fun out => (out.intervals.map ivLenZ).sum) = some (-7) ∧
      ((Lapper.new [⟨15, 18, 0⟩]).intervals.map ivLenZ).sum = 3 ∧
      (-7 : ℤ) ≠ 3 := by
  refine ⟨by decide, by decide, by decide⟩

/-- C2: the claim fails on the code.  In whole-genome position shuffle
on a genome of span 1000, the interval `[900,910)` with drawn value 989
(drawn uniformly from `[0, 990)`, the set of valid new start positions)
is relocated to `[1889,1899)`, because line 58 adds the drawn value to
the interval's original start instead of using it as the new start; the
output is not contained in the bounding window `[0, 1000)`. -/
theorem shuffle_containment_bug :
    shuffle_intervals (fun _ => 989) (Lapper.new [⟨900, 910, 0⟩])
        ⟨1000, Lapper.new [], none⟩ false =
      some (Lapper.new [⟨1889, 1899, 0⟩]) ∧
    ¬ containedIn ⟨1889, 1899, 0⟩ 0 1000 := by
  refine ⟨by decide, ?_⟩
  intro h
  exact absurd h.2 (by decide)

/-- C3: counterexample.  The claim says that with `alt == 'l'`
`count_permutations` returns the number of trials with `trial >= obs`;
at `obs = 0`, `trials = [5]` that number is 1, but the code counts
trials with `obs >= trial` and returns 0. -/
theorem count_permutations_direction_cex :
    count_permutations 0 [5] 'l' ≠ List.countP (fun t => decide ((0 : ℕ) ≤ t)) [5] := by
  decide

/-- C3 (amended): the two comparison directions are swapped relative to
the claim: with `alt == 'l'` `count_permutations` returns the number of
trials with `trial <= obs`, and with `alt == 'g'` the number of trials
with `trial >= obs`. -/
theorem count_permutations_directions (o_count : ℕ) (trials : List ℕ) :
    count_permutations o_count trials 'l'
        = trials.countP (fun t => decide (t ≤ o_count)) ∧
      count_permutations o_count trials 'g'
        = trials.countP (fun t => decide (o_count ≤ t)) := by
  constructor
  · unfold count_permutations
    rw [if_pos rfl, foldl_add_ite (fun i => i ≤ o_count)]
    omega
  · unfold count_permutations
    rw [if_neg (by decide), if_pos rfl, foldl_add_ite (fun i => o_count ≤ i)]
    omega

/-- C8: the claim fails on the code.  The chunk size is computed through
`f32` arithmetic (line 314); at `num_times = 16777217 = 2^24 + 1` and
`threads = 1`, `16777217 as f32` rounds to `16777216.0`, the computed
chunk size is 16777216, and the concatenation of all workers' results
holds 16777216 trial statistics instead of the requested 16777217. -/
theorem chunking_f32_bug :
    total_trials 16777217 1 = 16777216 ∧ (16777216 : ℕ) ≠ 16777217 := by
  refine ⟨by decide, by decide⟩

/-- C9: counterexample.  With genome span 100, `A = {[0,10)}`,
`B = {[0,30)}` (equal cardinalities, so no swap; B is the fixed,
never-randomized comparator), whole-genome mode: `main` builds the gap
budget from A, giving `0 ↦ 100 - 10 = 90`, whereas building it from the
fixed comparator B as claimed would give `0 ↦ 100 - 30 = 70`. -/
theorem gap_budget_source_cex :
    List.lookup 0 (main_gap_budget ⟨100, Lapper.new [⟨0, 100, 100⟩], none⟩
        (Lapper.new [⟨0, 10, 0⟩]) (Lapper.new [⟨0, 30, 0⟩]) false false false) ≠
      List.lookup 0 (make_gap_budget ⟨100, Lapper.new [⟨0, 100, 100⟩], none⟩
        (main_setup (Lapper.new [⟨0, 10, 0⟩]) (Lapper.new [⟨0, 30, 0⟩]) false false).b2
        false) := by
  decide

/-- Every draw of the gap-chopping loop is positive. -/
theorem nextRange_gap_pos (raw d : ℕ) : 1 ≤ nextRange raw 1 (max 2 d) := by
  simp [nextRange]

/-- A gap draw never exceeds the remaining budget: for `1 ≤ m`,
`next_range(1..max(2, m / NOVLMAGIC))` is at most `m`, so the source's
`m_gap -= g_l` cannot underflow. -/
theorem gap_draw_le (raw m : ℕ) (h : 1 ≤ m) :
    nextRange raw 1 (max 2 (m / NOVLMAGIC)) ≤ m := by
  unfold nextRange NOVLMAGIC
  have h1 : raw % (max 2 (m / 10000) - 1) < max 2 (m / 10000) - 1 :=
    Nat.mod_lt _ (by omega)
  have h2 : m / 10000 ≤ m := Nat.div_le_self _ _
  omega

/-- With fuel at least the budget, the chopping loop fully consumes the
budget (so the fuel never binds: the source's `while` loop terminates
within `m` iterations), and every recorded piece is positive. -/
theorem gapChop_spec (rng : ℕ → ℕ) :
    ∀ fuel k m, m ≤ fuel →
      (gapChopGo rng fuel k m).1.sum = m ∧
        List.Forall (fun g => 1 ≤ g) (gapChopGo rng fuel k m).1 := by
  intro fuel
  induction fuel with
  | zero =>
    intro k m hm
    have : m = 0 := by omega
    subst this
    simp [gapChopGo]
  | succ fuel ih =>
    intro k m hm
    by_cases h0 : m = 0
    · subst h0
      simp [gapChopGo]
    · have h1 : 1 ≤ nextRange (rng k) 1 (max 2 (m / NOVLMAGIC)) := nextRange_gap_pos _ _
      have h2 : nextRange (rng k) 1 (max 2 (m / NOVLMAGIC)) ≤ m :=
        gap_draw_le _ _ (by omega)
      obtain ⟨ihs, ihf⟩ :=
        ih (k + 1) (m - nextRange (rng k) 1 (max 2 (m / NOVLMAGIC))) (by omega)
      simp only [gapChopGo, if_neg h0, List.sum_cons, List.forall_cons]
      exact ⟨by omega, h1, ihf⟩

/-- The element at position `i` plus everything before it never exceeds
the whole sum. -/
theorem list_getD_take (l : List ℕ) (i : ℕ) : (l.take i).sum + l.getD i 0 ≤ l.sum := by
  induction l generalizing i with
  | nil => simp
  | cons x xs ih =>
    cases i with
    | zero =>
      simp
    | succ n =>
      simp only [List.take_succ_cons, List.sum_cons, List.getD_cons_succ]
      have := ih n
      omega

/-- C10: for every initial budget `m` and every draw stream, the
gap-chopping loop of `novl_intervals` terminates (the pieces are
produced by a total function whose fuel provably never binds, because
the budget is exactly consumed), every piece is at least 1, the pieces
sum exactly to the initial budget, and each piece is at most the budget
remaining when it was drawn (so `m_gap -= g_l` never underflows). -/
theorem gapPieces_spec (rng : ℕ → ℕ) (k m : ℕ) :
    (gapPieces rng k m).1.sum = m ∧
      List.Forall (fun g => 1 ≤ g) (gapPieces rng k m).1 ∧
      ∀ i, (gapPieces rng k m).1.getD i 0 ≤ m - ((gapPieces rng k m).1.take i).sum := by
  simp only [gapPieces]
  obtain ⟨hs, hf⟩ := gapChop_spec rng m k m le_rfl
  refine ⟨hs, hf, fun i => ?_⟩
  have := list_getD_take (gapChopGo rng m k m).1 i
  omega

/-- Every interval the layout sweep emits starts at or after the cursor. -/
theorem layout_start_le (l : List (Bool × ℕ)) :
    ∀ pos, ∀ i ∈ layout pos l, pos ≤ i.start := by
  induction l with
  | nil =>
    intro pos i hi
    simp [layout] at hi
  | cons hd tl ih =>
    intro pos i hi
    obtain ⟨b, len⟩ := hd
    cases b with
    | false =>
      simp only [layout] at hi
      have := ih (pos + len) i hi
      omega
    | true =>
      simp only [layout] at hi
      rcases List.mem_cons.mp hi with rfl | hmem
      · simp
      · have := ih (pos + len) i hmem
        omega

/-- The layout sweep emits intervals in increasing order: each one ends
at or before the next begins. -/
theorem layout_pairwise (l : List (Bool × ℕ)) :
    ∀ pos, (layout pos l).Pairwise (fun a b => a.stop ≤ b.start) := by
  induction l with
  | nil =>
    intro pos
    simp [layout]
  | cons hd tl ih =>
    intro pos
    obtain ⟨b, len⟩ := hd
    cases b with
    | false =>
      simp only [layout]
      exact ih (pos + len)
    | true =>
      simp only [layout]
      refine List.Pairwise.cons (fun j hj => ?_) (ih (pos + len))
      have := layout_start_le tl (pos + len) j hj
      simpa using this

/-- Each region's output list of `novl_intervals` is pairwise disjoint,
for every draw stream, shuffle, input collection and budget. -/
theorem novlRegionsGo_pairwise (rng : ℕ → ℕ)
    (shuffleF : List (Bool × ℕ) → List (Bool × ℕ)) (intv : Lapper)
    (budget : List (ℕ × ℕ)) :
    ∀ (l : List Iv) (k : ℕ),
      List.Forall (fun region => region.Pairwise IvDisjoint)
        (novlRegionsGo rng shuffleF intv budget l k) := by
  intro l
  induction l with
  | nil =>
    intro k
    simp [novlRegionsGo]
  | cons subi rest ih =>
    intro k
    simp only [novlRegionsGo, List.forall_cons]
    exact ⟨(layout_pairwise _ _).imp (fun h => Or.inl h), ih _⟩

/-- C5: for every input, genome, per-chromosome flag and every run
(draw stream and shuffle), no two intervals `novl_intervals` emits
within the same region overlap: each region's output is pairwise
disjoint. -/
theorem novl_no_overlap (rng : ℕ → ℕ)
    (shuffleF : List (Bool × ℕ) → List (Bool × ℕ)) (intv : Lapper)
    (genome : GenomeShift) (per_chrom : Bool) :
    List.Forall (fun region => region.Pairwise IvDisjoint)
      (novlRegions rng shuffleF intv genome per_chrom) := by
  rcases hgb : genome.gap_budget with _ | budget
  · simp [novlRegions, hgb]
  · simp only [novlRegions, hgb]
    exact novlRegionsGo_pairwise rng shuffleF intv budget (spans genome per_chrom) 0

/-- The permutation count never exceeds the number of trials. -/
theorem count_permutations_le (o_count : ℕ) (trials : List ℕ) (alt : Char) :
    count_permutations o_count trials alt ≤ trials.length := by
  unfold count_permutations
  by_cases hl : alt = 'l'
  · rw [if_pos hl, foldl_add_ite (fun i => i ≤ o_count)]
    simpa using List.countP_le_length _
  · rw [if_neg hl]
    by_cases hg : alt = 'g'
    · rw [if_pos hg, foldl_add_ite (fun i => o_count ≤ i)]
      simpa using List.countP_le_length _
    · rw [if_neg hg]
      exact Nat.zero_le _

/-- C4: for every observed statistic, trial vector of length `N ≥ 1`
and direction, `p_value = (g_count + 1) / (N + 1)` satisfies
`0 < p_value ≤ 1`, and `p_value = 1 / (N + 1)` exactly when
`g_count = 0`. -/
theorem p_val_bounds (o_count : ℕ) (trials : List ℕ) (alt : Char)
    (h : 1 ≤ trials.length) :
    0 < p_val (count_permutations o_count trials alt) trials.length ∧
      p_val (count_permutations o_count trials alt) trials.length ≤ 1 ∧
      (p_val (count_permutations o_count trials alt) trials.length
          = 1 / ((trials.length : ℚ) + 1)
        ↔ count_permutations o_count trials alt = 0) := by
  have hg : count_permutations o_count trials alt ≤ trials.length :=
    count_permutations_le o_count trials alt
  have hgQ : ((count_permutations o_count trials alt : ℚ)) ≤ (trials.length : ℚ) := by
    exact_mod_cast hg
  have hN : (0 : ℚ) < (trials.length : ℚ) + 1 := by positivity
  unfold p_val
  refine ⟨?_, ?_, ?_⟩
  · apply div_pos ?_ hN
    positivity
  · rw [div_le_one hN]
    linarith
  · rw [div_eq_div_iff hN.ne' hN.ne']
    constructor
    · intro hEq
      have h2 : ((count_permutations o_count trials alt : ℚ) + 1) = 1 :=
        mul_right_cancel₀ hN.ne' (by linarith)
      have h3 : ((count_permutations o_count trials alt : ℚ)) = 0 := by linarith
      exact_mod_cast h3
    · intro hg0
      rw [hg0]
      norm_num

/-- Witness for C4 at `obs = 3`, `trials = [5]`, `alt = 'l'`. -/
theorem p_val_bounds_witness :
    0 < p_val (count_permutations 3 [5] 'l') [5].length ∧
      p_val (count_permutations 3 [5] 'l') [5].length ≤ 1 ∧
      (p_val (count_permutations 3 [5] 'l') [5].length
          = 1 / (([5].length : ℚ) + 1)
        ↔ count_permutations 3 [5] 'l' = 0) :=
  p_val_bounds 3 [5] 'l' (by decide)

/-- The 0/1 indicator of a nonempty find result is bounded by its length. -/
theorem ite_head_le_length (l : List Iv) :
    (if l.head?.isSome then 1 else 0) ≤ l.length := by
  cases l with
  | nil => simp
  | cons y ys => simp

/-- For a find result with at most one element, the 0/1 indicator equals
the length. -/
theorem ite_head_eq_length (l : List Iv) (h : l.length ≤ 1) :
    (if l.head?.isSome then 1 else 0) = l.length := by
  cases l with
  | nil => simp
  | cons y ys =>
    have hys : ys.length = 0 := by
      simp only [List.length_cons] at h
      omega
    simp [hys]

/-- C6: `get_any_overlap_count(A, B) ≤ get_num_overlap_count(A, B)`
always, with equality whenever every A-interval overlaps at most one
B-interval. -/
theorem any_le_num_overlap (a_lap b_lap : Lapper) :
    get_any_overlap_count a_lap b_lap ≤ get_num_overlap_count a_lap b_lap ∧
      ((∀ i ∈ a_lap.intervals, (b_lap.find i.start i.stop).length ≤ 1) →
        get_any_overlap_count a_lap b_lap = get_num_overlap_count a_lap b_lap) := by
  obtain ⟨l⟩ := a_lap
  induction l with
  | nil => simp [get_any_overlap_count, get_num_overlap_count]
  | cons x xs ih =>
    simp only [get_any_overlap_count, get_num_overlap_count, List.map_cons,
      List.sum_cons] at ih ⊢
    have hle : (if (b_lap.find x.start x.stop).head?.isSome then 1 else 0)
        ≤ (b_lap.find x.start x.stop).length :=
      ite_head_le_length (b_lap.find x.start x.stop)
    constructor
    · have := ih.1
      omega
    · intro hAll
      have hxEq : (if (b_lap.find x.start x.stop).head?.isSome then 1 else 0)
          = (b_lap.find x.start x.stop).length :=
        ite_head_eq_length (b_lap.find x.start x.stop)
          (hAll x (List.mem_cons_self x xs))
      have := ih.2 (fun i hi => hAll i (List.mem_cons_of_mem _ hi))
      omega

/-- Witness for C6 at the spec's end-to-end scenario 1:
`A = {[100,200)}`, `B = {[150,160)}`; both counts are 1. -/
theorem any_le_num_overlap_witness :
    get_any_overlap_count (Lapper.new [⟨100, 200, 0⟩]) (Lapper.new [⟨150, 160, 0⟩])
      = get_num_overlap_count (Lapper.new [⟨100, 200, 0⟩]) (Lapper.new [⟨150, 160, 0⟩]) :=
  (any_le_num_overlap (Lapper.new [⟨100, 200, 0⟩]) (Lapper.new [⟨150, 160, 0⟩])).2
    (by decide)

/-- C7: counterexample.  At `trials = [5, 5]`, `obs = 0`, the variance
(hence the standard deviation) is 0 and the observed statistic is 0, so
the claim's condition `std == 0 && obs == 0` holds and the claim says
the z-score is reported as the handled value 0; but the code's guard
(line 350) tests `obs == 0 && mu == 0`, and with `mu = 5` it still
applies the formula `(obs - mu) / sd` — an `f64` division by zero. -/
theorem z_guard_cex :
    (mean_std [5, 5]).2 = 0 ∧ z_score_degenerate 0 (mean_std [5, 5]).1 = false := by
  have h1 : (mean_std [5, 5]).1 = 5 := by norm_num [mean_std]
  have h2 : (mean_std [5, 5]).2 = 0 := by norm_num [mean_std]
  refine ⟨h2, ?_⟩
  rw [z_score_degenerate, h1]
  norm_num

/-- C7 (amended): the degenerate reported-as-0 branch is taken exactly
when `obs == 0` and the permutation mean is 0 — not when `std == 0` and
`obs == 0` as claimed; since trials are nonnegative integers, a zero
mean forces a zero variance (hence zero std), so the handled case is a
strict subcase of the claim's condition, and when `std == 0` with a
nonzero mean the division is still performed. -/
theorem z_guard_iff (trials : List ℕ) (obs : ℕ) :
    (z_score_degenerate obs (mean_std trials).1 = true ↔
        obs = 0 ∧ (mean_std trials).1 = 0) ∧
      ((mean_std trials).1 = 0 → (mean_std trials).2 = 0) := by
  constructor
  · simp [z_score_degenerate]
  · intro h
    rcases trials with _ | ⟨x, xs⟩
    · norm_num [mean_std]
    · have hlen : (((x :: xs).length : ℚ)) ≠ 0 :=
        ne_of_gt (by exact_mod_cast Nat.succ_pos xs.length)
      have hmean : ((x :: xs).sum : ℚ) / ((x :: xs).length : ℚ) = 0 := by
        simpa [mean_std] using h
      have hsum0 : (x :: xs).sum = 0 := by
        rcases div_eq_zero_iff.mp hmean with h2 | h2
        · exact_mod_cast h2
        · exact absurd h2 hlen
      have hall : ∀ y ∈ x :: xs, y = 0 := List.sum_eq_zero_iff.mp hsum0
      have hnum : ((x :: xs).map
          (fun (y : ℕ) =>
            ((y : ℚ) - ((x :: xs).sum : ℚ) / ((x :: xs).length : ℚ)) ^ 2)).sum
            = 0 := by
        apply List.sum_eq_zero
        intro q hq
        rw [List.mem_map] at hq
        obtain ⟨y, hy, hfy⟩ := hq
        rw [← hfy, hall y hy, hmean]
        norm_num
      simp only [mean_std]
      rw [hnum, zero_div]

/-- Witness for C7's amended claim at `trials = [0, 0]`, `obs = 0`: the
degenerate branch is taken. -/
theorem z_guard_witness : z_score_degenerate 0 (mean_std [0, 0]).1 = true :=
  (z_guard_iff [0, 0] 0).1.mpr ⟨rfl, by norm_num [mean_std]⟩

/-- C9 (amended): the gap budget `main` installs is built once, before
the workers are spawned, from the post-merge/post-swap A collection —
exactly the collection every trial passes to the randomizer, not the
fixed comparator B — and in whole-genome mode it is the single entry
`0 ↦ genome.span - cov(A)`. -/
theorem gap_budget_from_randomized_side (genome : GenomeShift) (a b : Lapper)
    (no_merge no_swap per_chrom : Bool) :
    main_gap_budget genome a b no_merge no_swap per_chrom
        = make_gap_budget genome (main_setup a b no_merge no_swap).a2 per_chrom ∧
      (∀ randomizer overlapper,
        run_trial randomizer overlapper genome a b no_merge no_swap per_chrom
          = overlapper
              (randomizer (main_setup a b no_merge no_swap).a2 genome per_chrom)
              (main_setup a b no_merge no_swap).b2) ∧
      (per_chrom = false →
        List.lookup 0 (main_gap_budget genome a b no_merge no_swap per_chrom)
          = some (genome.span - (main_setup a b no_merge no_swap).a2.cov)) := by
  refine ⟨rfl, fun r o => rfl, fun hpc => ?_⟩
  subst hpc
  simp [main_gap_budget, make_gap_budget, List.lookup]

/-- Witness for C9's amended claim at the counterexample's inputs. -/
theorem gap_budget_from_randomized_side_witness :
    List.lookup 0 (main_gap_budget ⟨100, Lapper.new [⟨0, 100, 100⟩], none⟩
        (Lapper.new [⟨0, 10, 0⟩]) (Lapper.new [⟨0, 30, 0⟩]) false false false)
      = some (100 - (main_setup (Lapper.new [⟨0, 10, 0⟩])
          (Lapper.new [⟨0, 30, 0⟩]) false false).a2.cov) :=
  (gap_budget_from_randomized_side ⟨100, Lapper.new [⟨0, 100, 100⟩], none⟩
    (Lapper.new [⟨0, 10, 0⟩]) (Lapper.new [⟨0, 30, 0⟩]) false false false).2.2 rfl
